import Mathlib

/-!
# Verification of `cbordump.py`

A shallow embedding of the CBOR-to-JSON-lines dump tool, together with proofs
about its value transform.  The tool's only nontrivial logic is:

* `maybestr(x)`: strictly UTF-8-decode a byte string and accept the result only
  when every decoded code point lies in the inclusive range `[0x20, 0x7F]`;
* `jsonable(x)`: for a mapping, rewrite each byte-string value either to its
  decoded text (under the original key) or to its standard base64 encoding
  (under the key with `_b64` appended); recurse into non-byte-string values;
  return every non-mapping value unchanged;
* a main loop that repeatedly decodes one CBOR item from stdin and prints the
  transformed value as one JSON line.

Python strings are modelled as their lists of Unicode code points, byte
strings as lists of byte values, and mappings as insertion-ordered
association lists with Python-dict assignment semantics.
-/

/-- A Python `str`, modelled as its list of Unicode code points. -/
abbrev PyStr := List Nat

/-- The decoded CBOR value tree handed to `jsonable` by the decoder:
null, booleans, numbers, text strings, byte strings, sequences and mappings.
Mappings are insertion-ordered association lists with text keys (the key
concatenation `k + '_b64'` in the source assumes text keys; the spec leaves
non-text keys undefined). -/
inductive Val where
  | null : Val
  | boolean (b : Bool) : Val
  | int (n : Int) : Val
  | text (s : PyStr) : Val
  | bytes (bs : List Nat) : Val
  | arr (xs : List Val) : Val
  | map (es : List (PyStr × Val)) : Val

/- Structural boolean equality on `Val`, written by hand: `deriving` does not
handle the nested occurrence of `List Val`. -/
mutual
def Val.beq : Val → Val → Bool
  | Val.null, Val.null => true
  | Val.boolean a, Val.boolean b => a = b
  | Val.int a, Val.int b => a = b
  | Val.text a, Val.text b => a = b
  | Val.bytes a, Val.bytes b => a = b
  | Val.arr a, Val.arr b => Val.beqList a b
  | Val.map a, Val.map b => Val.beqEntries a b
  | _, _ => false

def Val.beqList : List Val → List Val → Bool
  | [], [] => true
  | a :: as, b :: bs => Val.beq a b && Val.beqList as bs
  | _, _ => false

def Val.beqEntries : List (PyStr × Val) → List (PyStr × Val) → Bool
  | [], [] => true
  | (ka, va) :: as, (kb, vb) :: bs => ka = kb && Val.beq va vb && Val.beqEntries as bs
  | _, _ => false
end

/-- One-byte-at-a-time strict UTF-8 decoder, as Python's `bytes.decode()`
with its default strict UTF-8 codec (RFC 3629).  `utf8Run bs pending acc lo hi`
processes `bs` where `pending` continuation bytes of the current sequence are
still expected, `acc` holds the code-point bits accumulated so far, and the
next byte must lie in `[lo, hi]` (the first continuation byte's range encodes
the table that rejects overlong forms, surrogates and code points beyond
`U+10FFFF`; later continuation bytes must lie in `[0x80, 0xBF]`).  When
`pending = 0` the next byte is a lead byte: `0x00`–`0x7F` stands alone,
`0xC2`–`0xDF` starts a two-byte sequence (`0xC0`/`0xC1` are rejected as
overlong), `0xE0`–`0xEF` a three-byte sequence (`0xE0` restricts the next
byte to `0xA0`–`0xBF`, `0xED` to `0x80`–`0x9F`), `0xF0`–`0xF4` a four-byte
sequence (`0xF0` restricts to `0x90`–`0xBF`, `0xF4` to `0x80`–`0x8F`), and
anything else is invalid.  `none` models a raised `UnicodeDecodeError`,
including a truncated final sequence. -/
def utf8Run : List Nat → Nat → Nat → Nat → Nat → Option (List Nat)
  | [], pending, _, _, _ => if pending = 0 then some [] else none
  | c :: bs, pending, acc, lo, hi =>
    if pending = 0 then
      if c ≤ 0x7F then
        match utf8Run bs 0 0 0 0 with
        | some cps => some (c :: cps)
        | none => none
      else if 0xC2 ≤ c ∧ c ≤ 0xDF then utf8Run bs 1 (c - 0xC0) 0x80 0xBF
      else if c = 0xE0 then utf8Run bs 2 (c - 0xE0) 0xA0 0xBF
      else if c = 0xED then utf8Run bs 2 (c - 0xE0) 0x80 0x9F
      else if 0xE0 ≤ c ∧ c ≤ 0xEF then utf8Run bs 2 (c - 0xE0) 0x80 0xBF
      else if c = 0xF0 then utf8Run bs 3 (c - 0xF0) 0x90 0xBF
      else if c = 0xF4 then utf8Run bs 3 (c - 0xF0) 0x80 0x8F
      else if 0xF0 ≤ c ∧ c ≤ 0xF4 then utf8Run bs 3 (c - 0xF0) 0x80 0xBF
      else none
    else
      if lo ≤ c ∧ c ≤ hi then
        if pending = 1 then
          match utf8Run bs 0 0 0 0 with
          | some cps => some ((acc * 0x40 + (c - 0x80)) :: cps)
          | none => none
        else utf8Run bs (pending - 1) (acc * 0x40 + (c - 0x80)) 0x80 0xBF
      else none

/-- Strict UTF-8 decoding of a byte list into its list of decoded code
points: run the decoder from its initial state. -/
def utf8Decode (bs : List Nat) : Option (List Nat) := utf8Run bs 0 0 0 0

/-- The character loop inside `maybestr`: walk the decoded string and return
`false` (the Python `return None`) as soon as a code point falls outside the
inclusive range `[0x20, 0x7F]`. -/
def allPrintable : List Nat → Bool
  | [] => true
  | c :: rest => if 0x20 ≤ c ∧ c ≤ 0x7F then allPrintable rest else false

/-- `maybestr(x)` from `cbordump.py`: try `x.decode()`; any decode error is
caught by the bare `except:` and yields `None`; a decoded character outside
`[0x20, 0x7F]` yields `None`; otherwise the decoded string is returned. -/
def maybestr (x : List Nat) : Option (List Nat) :=
  match utf8Decode x with
  | some y => if allPrintable y then some y else none
  | none => none

/-- Character `n` (for `n < 64`) of the standard base64 alphabet
`A`–`Z`, `a`–`z`, `0`–`9`, `+`, `/`, as a code point. -/
def b64char (n : Nat) : Nat :=
  if n < 26 then 65 + n
  else if n < 52 then 97 + (n - 26)
  else if n < 62 then 48 + (n - 52)
  else if n = 62 then 43
  else 47

/-- Inverse of the standard base64 alphabet: the six-bit value of a
character, or `none` for a character outside the alphabet. -/
def b64val (c : Nat) : Option Nat :=
  if 65 ≤ c ∧ c ≤ 90 then some (c - 65)
  else if 97 ≤ c ∧ c ≤ 122 then some (26 + (c - 97))
  else if 48 ≤ c ∧ c ≤ 57 then some (52 + (c - 48))
  else if c = 43 then some 62
  else if c = 47 then some 63
  else none

/-- `base64.b64encode(v).decode()`: standard (not URL-safe) base64 text of a
byte list, with `=` (code point `0x3D`) padding, as a list of code points. -/
def b64encode : List Nat → List Nat
  | [] => []
  | [a] => [b64char (a / 4), b64char (a % 4 * 16), 0x3D, 0x3D]
  | [a, b] => [b64char (a / 4), b64char (a % 4 * 16 + b / 16), b64char (b % 16 * 4), 0x3D]
  | a :: b :: c :: rest =>
    b64char (a / 4) :: b64char (a % 4 * 16 + b / 16) ::
    b64char (b % 16 * 4 + c / 64) :: b64char (c % 64) :: b64encode rest

/-- Standard base64 decoding of a padded base64 text back into the byte list
it encodes (`none` on malformed input). -/
def b64decode : List Nat → Option (List Nat)
  | [] => some []
  | c1 :: c2 :: c3 :: c4 :: rest =>
    match b64val c1, b64val c2 with
    | some v1, some v2 =>
      if c3 = 0x3D ∧ c4 = 0x3D ∧ rest = [] then
        some [v1 * 4 + v2 / 16]
      else
        match b64val c3 with
        | some v3 =>
          if c4 = 0x3D ∧ rest = [] then
            some [v1 * 4 + v2 / 16, v2 % 16 * 16 + v3 / 4]
          else
            match b64val c4, b64decode rest with
            | some v4, some tail =>
              some ((v1 * 4 + v2 / 16) :: (v2 % 16 * 16 + v3 / 4) :: (v3 % 4 * 64 + v4) :: tail)
            | _, _ => none
        | none => none
    | _, _ => none
  | _ => none

/-- The literal key suffix `_b64` appended by `jsonable`, as code points. -/
def b64suffix : PyStr := [0x5F, 0x62, 0x36, 0x34]

/-- Python dict assignment `out[k] = v` on an insertion-ordered association
list: overwrite the value in place when the key is present, otherwise append
the new entry at the end. -/
def dictInsert (out : List (PyStr × Val)) (k : PyStr) (v : Val) : List (PyStr × Val) :=
  if out.any (fun p => p.1 = k) then
    out.map (fun p => if p.1 = k then (k, v) else p)
  else
    out ++ [(k, v)]

/-- Python dict lookup on an association list (first matching key). -/
def mapLookup (es : List (PyStr × Val)) (k : PyStr) : Option Val :=
  match es with
  | [] => none
  | (k1, v) :: rest => if k1 = k then some v else mapLookup rest k

/-- Lookup of a key in a `Val`, when it is a mapping. -/
def Val.lookup : Val → PyStr → Option Val
  | Val.map es, k => mapLookup es k
  | _, _ => none

/-- Is the value a mapping (a Python `dict`)? -/
def Val.isMap : Val → Bool
  | Val.map _ => true
  | _ => false

/-- Is the value a byte string (a Python `bytes`)? -/
def Val.isBytes : Val → Bool
  | Val.bytes _ => true
  | _ => false

/- `jsonable(x)` from `cbordump.py`.  For a dict it builds a fresh dict
`out`, iterating the entries in order: a byte-string value `v` is stored as
its decoded text under the original key when `maybestr(v)` is truthy (a
nonempty printable string), and otherwise as `base64.b64encode(v).decode()`
under the key with `'_b64'` appended; any other value is stored under the
original key after a recursive `jsonable`.  Every non-dict value is returned
unchanged.  `jsonableEntries` is the loop, with `out` the accumulator. -/
mutual
/-- The transform `jsonable(x)` of `cbordump.py` (see the comment above). -/
def jsonable : Val → Val
  | Val.map es => Val.map (jsonableEntries es [])
  | x => x

def jsonableEntries : List (PyStr × Val) → List (PyStr × Val) → List (PyStr × Val)
  | [], out => out
  | (k, v) :: rest, out =>
    jsonableEntries rest
      (match v with
       | Val.bytes bs =>
         match maybestr bs with
         | some y =>
           if y = [] then dictInsert out (k ++ b64suffix) (Val.text (b64encode bs))
           else dictInsert out k (Val.text y)
         | none => dictInsert out (k ++ b64suffix) (Val.text (b64encode bs))
       | _ => dictInsert out k (jsonable v))
end

/-- The output key and value that the loop body of `jsonable` assigns for one
input entry `(k, v)`: byte strings go through the `maybestr` test, everything
else recurses. -/
def outKV (k : PyStr) (v : Val) : PyStr × Val :=
  match v with
  | Val.bytes bs =>
    match maybestr bs with
    | some y =>
      if y = [] then (k ++ b64suffix, Val.text (b64encode bs))
      else (k, Val.text y)
    | none => (k ++ b64suffix, Val.text (b64encode bs))
  | v => (k, jsonable v)

/-- The value stored by the last entry of `es` (in iteration order) whose
output key is `q`, if any: searching the reversed entry list for the first
entry that `jsonable` would write under key `q`. -/
def lastWriteVal (es : List (PyStr × Val)) (q : PyStr) : Option Val :=
  (es.reverse.find? fun e => decide ((outKV e.1 e.2).1 = q)).map fun e => (outKV e.1 e.2).2

/-- Exceptions that can cross the main loop of `cbordump.py`. -/
inductive PyExc where
  | eofError : PyExc
  | cborDecodeError : PyExc

/-- Modelled from the spec: the CBOR decoder (`cbor.cbor.load`, an external
collaborator, not part of this repository) yields one decoded item per call
and, per the spec, "signals end-of-stream" once the input is exhausted, or
fails on a malformed item.  Both signals are raised exceptions (python-cbor
raises `EOFError` when zero bytes are available at the start of a new item);
an empty stdin yields the end-of-stream signal immediately.  The stream of
`load` results is the list of decoded items followed by the final signal. -/
def decodeResults (items : List Val) (clean : Bool) : List (Except PyExc Val) :=
  items.map Except.ok ++
    [Except.error (if clean then PyExc.eofError else PyExc.cborDecodeError)]

/-- The `while True` main loop of `cbordump.py`, consuming the stream of
`load` results: each successfully decoded item is transformed by `jsonable`
and emitted as one line; the loop body has no `try`/`except`, so the first
raised exception escapes the loop with no further lines emitted. -/
def mainLoop : List (Except PyExc Val) → List Val × Option PyExc
  | [] => ([], none)
  | Except.ok v :: rest =>
    match mainLoop rest with
    | (lines, exc) => (jsonable v :: lines, exc)
  | Except.error e :: _ => ([], some e)

/-- CPython's exit status for the program run: `0` when the script runs off
the end normally, `1` when an uncaught exception terminates the interpreter. -/
def exitCode (r : List Val × Option PyExc) : Nat :=
  match r.2 with
  | some _ => 1
  | none => 0

mutual
theorem Val.beq_iff : ∀ a b : Val, Val.beq a b = true ↔ a = b := by
  intro a b
  cases a <;> cases b <;> simp [Val.beq]
  case arr.arr a b => exact Val.beqList_iff a b
  case map.map a b => exact Val.beqEntries_iff a b

theorem Val.beqList_iff : ∀ a b : List Val, Val.beqList a b = true ↔ a = b := by
  intro a b
  cases a <;> cases b <;> simp [Val.beqList]
  case cons.cons x xs y ys =>
    rw [Val.beq_iff, Val.beqList_iff]

theorem Val.beqEntries_iff : ∀ a b : List (PyStr × Val), Val.beqEntries a b = true ↔ a = b := by
  intro a b
  cases a <;> cases b <;> simp [Val.beqEntries]
  case cons.cons x xs y ys =>
    rw [Val.beq_iff, Val.beqEntries_iff, Prod.ext_iff]
end

instance : DecidableEq Val := fun a b =>
  decidable_of_iff (Val.beq a b = true) (Val.beq_iff a b)

/- Sanity checks, evaluated by the kernel: the two scenarios of the spec
(`{"name": b"Alice"}` and `{"blob": b"\xff\xfe\x00"}` in miniature), the
pass-through of sequences, and the empty byte string. -/

example : jsonable (Val.map [([0x61], Val.bytes [0x41, 0x42])])
    = Val.map [([0x61], Val.text [0x41, 0x42])] := rfl

example : jsonable (Val.map [([0x61], Val.bytes [0xFF, 0xFE, 0x00])])
    = Val.map [([0x61, 0x5F, 0x62, 0x36, 0x34], Val.text [0x2F, 0x2F, 0x34, 0x41])] := rfl

example : jsonable (Val.arr [Val.bytes [0xFF]]) = Val.arr [Val.bytes [0xFF]] := rfl

example : maybestr [] = some [] := rfl

example : jsonable (Val.map [([0x61], Val.bytes [])])
    = Val.map [([0x61, 0x5F, 0x62, 0x36, 0x34], Val.text [])] := rfl

/- Spot checks of the UTF-8 decoder against the strict codec: ASCII,
ordinary multi-byte sequences, overlong forms, surrogates, values beyond
`U+10FFFF`, truncation, and stray continuation bytes. -/

example : utf8Decode [0xC3, 0xA9] = some [0xE9] := rfl
example : utf8Decode [0xC1, 0xBF] = none := rfl
example : utf8Decode [0x80] = none := rfl
example : utf8Decode [0xE0, 0xA0, 0x80] = some [0x800] := rfl
example : utf8Decode [0xE0, 0x9F, 0x80] = none := rfl
example : utf8Decode [0xED, 0x9F, 0xBF] = some [0xD7FF] := rfl
example : utf8Decode [0xED, 0xA0, 0x80] = none := rfl
example : utf8Decode [0xE2, 0x82, 0xAC] = some [0x20AC] := rfl
example : utf8Decode [0xF0, 0x90, 0x80, 0x80] = some [0x10000] := rfl
example : utf8Decode [0xF0, 0x8F, 0xBF, 0xBF] = none := rfl
example : utf8Decode [0xF4, 0x8F, 0xBF, 0xBF] = some [0x10FFFF] := rfl
example : utf8Decode [0xF4, 0x90, 0x80, 0x80] = none := rfl
example : utf8Decode [0x41, 0xC3] = none := rfl
example : utf8Decode [0xFF] = none := rfl

/-- Bytes that are all ASCII (`≤ 0x7F`) decode to themselves. -/
theorem utf8Decode_ascii : ∀ bs : List Nat, (∀ b ∈ bs, b ≤ 0x7F) → utf8Decode bs = some bs := by
  intro bs h
  induction bs with
  | nil => rfl
  | cons b rest ih =>
    have hb : b ≤ 0x7F := h b (List.mem_cons_self b rest)
    have hrest : utf8Run rest 0 0 0 0 = some rest :=
      ih fun x hx => h x (List.mem_cons_of_mem b hx)
    simp only [utf8Decode, utf8Run, if_pos rfl, if_pos hb, hrest, if_true]

/-- A successful run of the decoder with a multi-byte sequence still open
emits a first code point of at least `0x80`.  The arithmetic hypothesis is
the invariant carried by every reachable open state. -/
theorem utf8Run_big : ∀ (bs : List Nat) (p acc lo hi : Nat) (cps : List Nat),
    utf8Run bs p acc lo hi = some cps → 1 ≤ p → p ≤ 3 → 0x80 ≤ lo →
    0x80 ≤ (acc * 64 + (lo - 0x80)) * 64 ^ (p - 1) →
    ∃ cp cps', cps = cp :: cps' ∧ 0x80 ≤ cp := by
  intro bs
  induction bs with
  | nil =>
    intro p acc lo hi cps h hp1 _ _ _
    simp only [utf8Run] at h
    rw [if_neg (by omega)] at h
    exact absurd h (by simp)
  | cons c bs ih =>
    intro p acc lo hi cps h hp1 hp3 hlo hinv
    simp only [utf8Run] at h
    rw [if_neg (by omega)] at h
    by_cases hrange : lo ≤ c ∧ c ≤ hi
    · rw [if_pos hrange] at h
      by_cases hp : p = 1
      · rw [if_pos hp] at h
        rcases hr : utf8Run bs 0 0 0 0 with _ | cps'
        · rw [hr] at h; exact absurd h (by simp)
        · rw [hr] at h
          refine ⟨acc * 0x40 + (c - 0x80), cps', (Option.some.inj h).symm, ?_⟩
          subst hp
          norm_num at hinv
          omega
      · rw [if_neg hp] at h
        have hp2 : p = 2 ∨ p = 3 := by omega
        refine ih (p - 1) (acc * 0x40 + (c - 0x80)) 0x80 0xBF cps h (by omega) (by omega)
          (by omega) ?_
        rcases hp2 with rfl | rfl <;> norm_num at hinv ⊢ <;> omega
    · rw [if_neg hrange] at h
      exact absurd h (by simp)

/-- `utf8Run_big` at `pending = 1`. -/
theorem utf8Run_big1 (bs : List Nat) (acc lo hi : Nat) (cps : List Nat)
    (h : utf8Run bs 1 acc lo hi = some cps) (hlo : 0x80 ≤ lo)
    (hA : 0x80 ≤ acc * 64 + (lo - 0x80)) :
    ∃ cp cps', cps = cp :: cps' ∧ 0x80 ≤ cp :=
  utf8Run_big bs 1 acc lo hi cps h (by omega) (by omega) hlo (by norm_num; omega)

/-- `utf8Run_big` at `pending = 2`. -/
theorem utf8Run_big2 (bs : List Nat) (acc lo hi : Nat) (cps : List Nat)
    (h : utf8Run bs 2 acc lo hi = some cps) (hlo : 0x80 ≤ lo)
    (hA : 2 ≤ acc * 64 + (lo - 0x80)) :
    ∃ cp cps', cps = cp :: cps' ∧ 0x80 ≤ cp :=
  utf8Run_big bs 2 acc lo hi cps h (by omega) (by omega) hlo (by norm_num; omega)

/-- `utf8Run_big` at `pending = 3`. -/
theorem utf8Run_big3 (bs : List Nat) (acc lo hi : Nat) (cps : List Nat)
    (h : utf8Run bs 3 acc lo hi = some cps) (hlo : 0x80 ≤ lo)
    (hA : 1 ≤ acc * 64 + (lo - 0x80)) :
    ∃ cp cps', cps = cp :: cps' ∧ 0x80 ≤ cp :=
  utf8Run_big bs 3 acc lo hi cps h (by omega) (by omega) hlo (by norm_num; omega)

/-- If a byte list decodes successfully and every decoded code point is at
most `0x7F`, then the decoded code points are exactly the input bytes: every
multi-byte sequence would have produced a code point of at least `0x80`. -/
theorem utf8Decode_le_7F_eq : ∀ bs cps : List Nat, utf8Decode bs = some cps →
    (∀ c ∈ cps, c ≤ 0x7F) → cps = bs := by
  intro bs
  induction bs with
  | nil =>
    intro cps h _
    exact (Option.some.inj h).symm
  | cons c bs ih =>
    intro cps h hle
    simp only [utf8Decode, utf8Run] at h
    rw [if_true] at h
    by_cases h7 : c ≤ 0x7F
    · rw [if_pos h7] at h
      rcases hr : utf8Run bs 0 0 0 0 with _ | cps'
      · rw [hr] at h; exact absurd h (by simp)
      · rw [hr] at h
        obtain rfl : c :: cps' = cps := Option.some.inj h
        rw [ih cps' hr fun x hx => hle x (List.mem_cons_of_mem c hx)]
    · rw [if_neg h7] at h
      by_cases hB : 0xC2 ≤ c ∧ c ≤ 0xDF
      · rw [if_pos hB] at h
        obtain ⟨cp, cps', rfl, hcp⟩ := utf8Run_big1 bs _ _ _ cps h (by omega) (by omega)
        exact absurd (hle cp (List.mem_cons_self _ _)) (by omega)
      · rw [if_neg hB] at h
        by_cases hC : c = 0xE0
        · rw [if_pos hC] at h
          obtain ⟨cp, cps', rfl, hcp⟩ := utf8Run_big2 bs _ _ _ cps h (by omega) (by omega)
          exact absurd (hle cp (List.mem_cons_self _ _)) (by omega)
        · rw [if_neg hC] at h
          by_cases hD : c = 0xED
          · rw [if_pos hD] at h
            obtain ⟨cp, cps', rfl, hcp⟩ := utf8Run_big2 bs _ _ _ cps h (by omega)
              (by subst hD; omega)
            exact absurd (hle cp (List.mem_cons_self _ _)) (by omega)
          · rw [if_neg hD] at h
            by_cases hE : 0xE0 ≤ c ∧ c ≤ 0xEF
            · rw [if_pos hE] at h
              obtain ⟨cp, cps', rfl, hcp⟩ := utf8Run_big2 bs _ _ _ cps h (by omega) (by omega)
              exact absurd (hle cp (List.mem_cons_self _ _)) (by omega)
            · rw [if_neg hE] at h
              by_cases hF : c = 0xF0
              · rw [if_pos hF] at h
                obtain ⟨cp, cps', rfl, hcp⟩ := utf8Run_big3 bs _ _ _ cps h (by omega) (by omega)
                exact absurd (hle cp (List.mem_cons_self _ _)) (by omega)
              · rw [if_neg hF] at h
                by_cases hG : c = 0xF4
                · rw [if_pos hG] at h
                  obtain ⟨cp, cps', rfl, hcp⟩ := utf8Run_big3 bs _ _ _ cps h (by omega)
                    (by subst hG; omega)
                  exact absurd (hle cp (List.mem_cons_self _ _)) (by omega)
                · rw [if_neg hG] at h
                  by_cases hH : 0xF0 ≤ c ∧ c ≤ 0xF4
                  · rw [if_pos hH] at h
                    obtain ⟨cp, cps', rfl, hcp⟩ := utf8Run_big3 bs _ _ _ cps h (by omega)
                      (by omega)
                    exact absurd (hle cp (List.mem_cons_self _ _)) (by omega)
                  · rw [if_neg hH] at h
                    exact absurd h (by simp)

/-- The character loop accepts exactly the strings whose code points all lie
in `[0x20, 0x7F]`. -/
theorem allPrintable_iff : ∀ l : List Nat,
    allPrintable l = true ↔ ∀ c ∈ l, 0x20 ≤ c ∧ c ≤ 0x7F := by
  intro l
  induction l with
  | nil => simp [allPrintable]
  | cons c rest ih =>
    simp only [allPrintable, List.forall_mem_cons]
    by_cases hc : 0x20 ≤ c ∧ c ≤ 0x7F
    · rw [if_pos hc, ih]
      simp [hc]
    · rw [if_neg hc]
      simp [hc]

/-- `maybestr` returns a string exactly when decoding succeeds with that
string and all its code points lie in `[0x20, 0x7F]`. -/
theorem maybestr_eq_some_iff : ∀ x y : List Nat, maybestr x = some y ↔
    utf8Decode x = some y ∧ ∀ c ∈ y, 0x20 ≤ c ∧ c ≤ 0x7F := by
  intro x y
  rcases h : utf8Decode x with _ | z
  · simp [maybestr, h]
  · simp only [maybestr, h]
    by_cases hz : allPrintable z
    · rw [if_pos hz]
      constructor
      · intro he
        obtain rfl : z = y := Option.some.inj he
        exact ⟨rfl, (allPrintable_iff z).mp hz⟩
      · intro he
        exact he.1
    · rw [if_neg hz]
      constructor
      · intro he
        exact absurd he (by simp)
      · intro he
        obtain rfl : z = y := Option.some.inj he.1
        exact absurd ((allPrintable_iff z).mpr he.2) hz

/-- `maybestr` returns `None` exactly when decoding fails or some decoded
code point falls outside `[0x20, 0x7F]`. -/
theorem maybestr_eq_none_iff : ∀ x : List Nat, maybestr x = none ↔
    utf8Decode x = none ∨
      ∃ y, utf8Decode x = some y ∧ ∃ c ∈ y, c < 0x20 ∨ 0x7F < c := by
  intro x
  rcases h : utf8Decode x with _ | z
  · simp [maybestr, h]
  · simp only [maybestr, h]
    by_cases hz : allPrintable z
    · rw [if_pos hz]
      constructor
      · intro he
        exact absurd he (by simp)
      · rintro (he | ⟨y, hy, c, hc, hbad⟩)
        · exact absurd he (by simp)
        · exfalso
          obtain rfl : z = y := Option.some.inj hy
          have := (allPrintable_iff _).mp hz c hc
          omega
    · rw [if_neg hz]
      have hex : ¬ ∀ c ∈ z, 0x20 ≤ c ∧ c ≤ 0x7F :=
        fun hall => hz ((allPrintable_iff z).mpr hall)
      simp only [not_forall, Classical.not_imp] at hex
      obtain ⟨c, hc, hbad⟩ := hex
      constructor
      · intro _
        exact Or.inr ⟨z, rfl, c, hc, by omega⟩
      · intro _
        rfl

/-- A nonempty all-printable byte string is returned by `maybestr` verbatim:
each printable ASCII byte decodes to itself. -/
theorem maybestr_printable (bs : List Nat) (h : ∀ b ∈ bs, 0x20 ≤ b ∧ b ≤ 0x7F) :
    maybestr bs = some bs :=
  (maybestr_eq_some_iff bs bs).mpr ⟨utf8Decode_ascii bs fun b hb => (h b hb).2, h⟩

/-- Whatever `maybestr` returns is the input itself, and in that case every
input byte is printable ASCII. -/
theorem maybestr_some_inv (bs y : List Nat) (h : maybestr bs = some y) :
    y = bs ∧ ∀ b ∈ bs, 0x20 ≤ b ∧ b ≤ 0x7F := by
  obtain ⟨hd, hall⟩ := (maybestr_eq_some_iff bs y).mp h
  have hy : y = bs := utf8Decode_le_7F_eq bs y hd fun c hc => (hall c hc).2
  subst hy
  exact ⟨rfl, hall⟩

/-- A byte string with a byte outside `[0x20, 0x7F]`, or that is invalid
UTF-8, is rejected by `maybestr`. -/
theorem maybestr_not_printable (bs : List Nat)
    (h : (∃ b ∈ bs, b < 0x20 ∨ 0x7F < b) ∨ utf8Decode bs = none) :
    maybestr bs = none := by
  rcases hm : maybestr bs with _ | y
  · rfl
  · exfalso
    obtain ⟨hdec, _⟩ := (maybestr_eq_some_iff bs y).mp hm
    obtain ⟨hy, hallbs⟩ := maybestr_some_inv bs y hm
    rcases h with ⟨b, hb, hbad⟩ | hnone
    · have := hallbs b hb
      omega
    · rw [hnone] at hdec
      exact absurd hdec (by simp)

/-- The base64 alphabet decodes back to each six-bit value. -/
theorem b64val_b64char : ∀ n : Nat, n < 64 → b64val (b64char n) = some n := by decide

/-- No base64 alphabet character is the padding character `=`. -/
theorem b64char_ne_pad : ∀ n : Nat, n < 64 → b64char n ≠ 0x3D := by decide

/-- Standard base64 decoding inverts `b64encode` on any list of bytes: the
value stored under a `_b64` key reproduces the original byte string. -/
theorem b64_roundtrip : ∀ bs : List Nat, (∀ b ∈ bs, b < 256) →
    b64decode (b64encode bs) = some bs := by
  intro bs
  induction bs using b64encode.induct with
  | case1 =>
    intro _
    rfl
  | case2 a =>
    intro h
    have ha : a < 256 := h a (by simp)
    simp only [b64encode, b64decode]
    rw [b64val_b64char (a / 4) (by omega), b64val_b64char (a % 4 * 16) (by omega)]
    dsimp only
    rw [if_pos (by simp)]
    have he : a / 4 * 4 + a % 4 * 16 / 16 = a := by omega
    rw [he]
  | case3 a b =>
    intro h
    have ha : a < 256 := h a (by simp)
    have hb : b < 256 := h b (by simp)
    simp only [b64encode, b64decode]
    rw [b64val_b64char (a / 4) (by omega), b64val_b64char (a % 4 * 16 + b / 16) (by omega),
      b64val_b64char (b % 16 * 4) (by omega)]
    dsimp only
    rw [if_neg fun hc => b64char_ne_pad (b % 16 * 4) (by omega) hc.1]
    rw [if_pos (by simp)]
    have h1 : a / 4 * 4 + (a % 4 * 16 + b / 16) / 16 = a := by omega
    have h2 : (a % 4 * 16 + b / 16) % 16 * 16 + b % 16 * 4 / 4 = b := by omega
    rw [h1, h2]
  | case4 a b c rest ih =>
    intro h
    have ha : a < 256 := h a (by simp)
    have hb : b < 256 := h b (by simp)
    have hc : c < 256 := h c (by simp)
    have hrest := ih fun x hx => h x (by simp [hx])
    simp only [b64encode, b64decode]
    rw [b64val_b64char (a / 4) (by omega), b64val_b64char (a % 4 * 16 + b / 16) (by omega),
      b64val_b64char (b % 16 * 4 + c / 64) (by omega), b64val_b64char (c % 64) (by omega),
      hrest]
    dsimp only
    rw [if_neg fun hcon => b64char_ne_pad (b % 16 * 4 + c / 64) (by omega) hcon.1]
    rw [if_neg fun hcon => b64char_ne_pad (c % 64) (by omega) hcon.1]
    have h1 : a / 4 * 4 + (a % 4 * 16 + b / 16) / 16 = a := by omega
    have h2 : (a % 4 * 16 + b / 16) % 16 * 16 + (b % 16 * 4 + c / 64) / 4 = b := by omega
    have h3 : (b % 16 * 4 + c / 64) % 4 * 64 + c % 64 = c := by omega
    rw [h1, h2, h3]

/-- Lookup in a concatenation: the left list takes precedence. -/
theorem mapLookup_append : ∀ (out out' : List (PyStr × Val)) (q : PyStr),
    mapLookup (out ++ out') q = (mapLookup out q).or (mapLookup out' q) := by
  intro out out' q
  induction out with
  | nil => simp [mapLookup]
  | cons p rest ih =>
    obtain ⟨k1, v1⟩ := p
    simp only [List.cons_append, mapLookup]
    by_cases hp : k1 = q
    · rw [if_pos hp, if_pos hp]
      simp [Option.or]
    · rw [if_neg hp, if_neg hp, List.append_eq, ih]

/-- Overwriting the value at key `k` leaves lookups of other keys unchanged. -/
theorem mapLookup_overwrite_ne (k : PyStr) (v : Val) (q : PyStr) (hq : q ≠ k) :
    ∀ out : List (PyStr × Val),
      mapLookup (out.map fun p => if p.1 = k then (k, v) else p) q = mapLookup out q := by
  intro out
  induction out with
  | nil => rfl
  | cons p rest ih =>
    obtain ⟨k1, v1⟩ := p
    simp only [List.map_cons]
    by_cases h1 : k1 = k
    · rw [show ((if (k1, v1).1 = k then (k, v) else (k1, v1)) = (k, v)) from if_pos h1]
      simp only [mapLookup]
      rw [if_neg fun h => hq h.symm, if_neg fun h => hq (h1 ▸ h).symm, ih]
    · rw [show ((if (k1, v1).1 = k then (k, v) else (k1, v1)) = (k1, v1)) from if_neg h1]
      simp only [mapLookup]
      by_cases hq1 : k1 = q
      · rw [if_pos hq1, if_pos hq1]
      · rw [if_neg hq1, if_neg hq1, ih]

/-- Overwriting the value at a present key `k` makes lookup of `k` yield the
new value. -/
theorem mapLookup_overwrite_eq (k : PyStr) (v : Val) :
    ∀ out : List (PyStr × Val), out.any (fun p => p.1 = k) = true →
      mapLookup (out.map fun p => if p.1 = k then (k, v) else p) k = some v := by
  intro out
  induction out with
  | nil => intro h; simp at h
  | cons p rest ih =>
    intro hmem
    obtain ⟨k1, v1⟩ := p
    simp only [List.map_cons]
    by_cases h1 : k1 = k
    · rw [show ((if (k1, v1).1 = k then (k, v) else (k1, v1)) = (k, v)) from if_pos h1]
      simp [mapLookup]
    · rw [show ((if (k1, v1).1 = k then (k, v) else (k1, v1)) = (k1, v1)) from if_neg h1]
      simp only [mapLookup]
      rw [if_neg h1]
      refine ih ?_
      simp only [List.any_cons, Bool.or_eq_true, decide_eq_true_eq] at hmem
      rcases hmem with h | h
      · exact absurd h h1
      · exact h

/-- A key on which `any` fails is absent: lookup yields `none`. -/
theorem mapLookup_not_any (k : PyStr) :
    ∀ out : List (PyStr × Val), out.any (fun p => p.1 = k) = false →
      mapLookup out k = none := by
  intro out
  induction out with
  | nil => intro _; rfl
  | cons p rest ih =>
    intro hmem
    obtain ⟨k1, v1⟩ := p
    simp only [List.any_cons, Bool.or_eq_false_iff, decide_eq_false_iff_not] at hmem
    simp only [mapLookup]
    rw [if_neg hmem.1]
    exact ih hmem.2

/-- Python dict assignment: after `out[k] = v`, looking up `k` yields `v`
and looking up any other key is unchanged. -/
theorem mapLookup_dictInsert (out : List (PyStr × Val)) (k : PyStr) (v : Val) (q : PyStr) :
    mapLookup (dictInsert out k v) q = if q = k then some v else mapLookup out q := by
  unfold dictInsert
  by_cases hmem : out.any (fun p => p.1 = k)
  · rw [if_pos hmem]
    by_cases hq : q = k
    · subst hq
      rw [if_pos rfl]
      exact mapLookup_overwrite_eq q v out hmem
    · rw [if_neg hq]
      exact mapLookup_overwrite_ne k v q hq out
  · rw [if_neg hmem]
    rw [mapLookup_append]
    have hsingle : ∀ r : PyStr, mapLookup [(k, v)] r = if k = r then some v else none := by
      intro r
      simp [mapLookup]
    by_cases hq : q = k
    · subst hq
      rw [if_pos rfl,
        mapLookup_not_any q out (by simp only [Bool.not_eq_true] at hmem; exact hmem),
        hsingle q, if_pos rfl]
      rfl
    · rw [if_neg hq, hsingle q, if_neg fun h => hq h.symm]
      exact Option.or_none

/-- One iteration of the `jsonable` loop performs exactly the dict assignment
described by `outKV`. -/
theorem jsonableEntries_cons (k : PyStr) (v : Val) (rest out : List (PyStr × Val)) :
    jsonableEntries ((k, v) :: rest) out =
      jsonableEntries rest (dictInsert out (outKV k v).1 (outKV k v).2) := by
  cases v <;> simp only [jsonableEntries, outKV]
  case bytes bs =>
    rcases h : maybestr bs with _ | y
    · rfl
    · by_cases hy : y = [] <;> simp [hy]

/-- Lookup in the dict built by the `jsonable` loop: the last entry writing
the key wins, and keys never written fall through to the accumulator. -/
theorem mapLookup_jsonableEntries : ∀ (es out : List (PyStr × Val)) (q : PyStr),
    mapLookup (jsonableEntries es out) q = (lastWriteVal es q).or (mapLookup out q) := by
  intro es
  induction es with
  | nil =>
    intro out q
    simp [jsonableEntries, lastWriteVal]
  | cons e rest ih =>
    intro out q
    obtain ⟨k, v⟩ := e
    rw [jsonableEntries_cons, ih, mapLookup_dictInsert]
    unfold lastWriteVal
    rw [List.reverse_cons, List.find?_append]
    rcases hf : rest.reverse.find? (fun e => decide ((outKV e.1 e.2).1 = q)) with _ | e'
    · simp only [hf, Option.none_or]
      by_cases hw : (outKV k v).1 = q
      · simp [List.find?, hw, Option.or, if_pos hw.symm]
      · rw [if_neg (fun h => hw h.symm)]
        simp [List.find?, hw, Option.or]
    · simp [hf, Option.or]

/-- Lookup in the transform of a mapping is exactly the last write. -/
theorem lookup_jsonable_map (es : List (PyStr × Val)) (q : PyStr) :
    Val.lookup (jsonable (Val.map es)) q = lastWriteVal es q := by
  show mapLookup (jsonableEntries es []) q = lastWriteVal es q
  rw [mapLookup_jsonableEntries]
  exact Option.or_none

/-- `find?` returns the unique element satisfying the predicate. -/
theorem find?_eq_some_of_unique {α : Type} (p : α → Bool) :
    ∀ (l : List α) (a : α), a ∈ l → p a = true →
      (∀ b ∈ l, p b = true → b = a) → l.find? p = some a := by
  intro l
  induction l with
  | nil =>
    intro a ha
    simp at ha
  | cons x xs ih =>
    intro a ha hpa huniq
    by_cases hx : p x = true
    · have hxa : x = a := huniq x (List.mem_cons_self _ _) hx
      subst hxa
      exact List.find?_cons_of_pos _ hx
    · rw [List.find?_cons_of_neg _ hx]
      rcases List.mem_cons.mp ha with rfl | hmem
      · exact absurd hpa hx
      · exact ih a hmem hpa fun b hb => huniq b (List.mem_cons_of_mem _ hb)

/-- In a mapping whose keys are distinct (as in any Python dict), a key
determines its entry. -/
theorem nodup_keys_val_eq : ∀ (es : List (PyStr × Val)) (k : PyStr) (v v' : Val),
    (es.map Prod.fst).Nodup → (k, v) ∈ es → (k, v') ∈ es → v = v' := by
  intro es
  induction es with
  | nil =>
    intro k v v' _ h
    simp at h
  | cons e rest ih =>
    intro k v v' hnd h1 h2
    simp only [List.map_cons, List.nodup_cons] at hnd
    rcases List.mem_cons.mp h1 with rfl | hm1
    · rcases List.mem_cons.mp h2 with he | hm2
      · exact (Prod.mk.injEq .. ▸ he.symm).2
      · exact absurd (List.mem_map_of_mem Prod.fst hm2) hnd.1
    · rcases List.mem_cons.mp h2 with rfl | hm2
      · exact absurd (List.mem_map_of_mem Prod.fst hm1) hnd.1
      · exact ih k v v' hnd.2 hm1 hm2

/-- When no entry writes the key `q`, the transform's output has no key `q`. -/
theorem lastWriteVal_eq_none (es : List (PyStr × Val)) (q : PyStr)
    (h : ∀ e ∈ es, (outKV e.1 e.2).1 ≠ q) : lastWriteVal es q = none := by
  unfold lastWriteVal
  rw [List.find?_eq_none.mpr]
  · rfl
  · intro e he
    simp only [decide_eq_true_eq]
    exact h e (List.mem_reverse.mp he)

/-- When exactly one entry writes the key `q`, the transform's output stores
that entry's written value under `q`. -/
theorem lastWriteVal_eq_some (es : List (PyStr × Val)) (q : PyStr) (e : PyStr × Val)
    (hmem : e ∈ es) (hw : (outKV e.1 e.2).1 = q)
    (huniq : ∀ e' ∈ es, (outKV e'.1 e'.2).1 = q → e' = e) :
    lastWriteVal es q = some (outKV e.1 e.2).2 := by
  unfold lastWriteVal
  rw [find?_eq_some_of_unique _ es.reverse e (List.mem_reverse.mpr hmem)
    (by simpa using hw)
    (fun b hb hpb => huniq b (List.mem_reverse.mp hb) (by simpa using hpb))]
  rfl

/-- Every value found in the transform of a mapping was written by some
entry of the mapping. -/
theorem lookup_jsonable_some (es : List (PyStr × Val)) (q : PyStr) (w : Val)
    (h : Val.lookup (jsonable (Val.map es)) q = some w) :
    ∃ e ∈ es, outKV e.1 e.2 = (q, w) := by
  rw [lookup_jsonable_map] at h
  unfold lastWriteVal at h
  rcases hf : es.reverse.find? (fun e => decide ((outKV e.1 e.2).1 = q)) with _ | e
  · rw [hf] at h
    simp at h
  · rw [hf] at h
    have hp := List.find?_some hf
    have hmem := List.mem_of_find?_eq_some hf
    refine ⟨e, List.mem_reverse.mp hmem, ?_⟩
    simp only [Option.map_some'] at h
    simp only [decide_eq_true_eq] at hp
    exact Prod.ext_iff.mpr ⟨hp, Option.some.inj h⟩

/-- Each loop iteration writes either under the original key or under the
key with `_b64` appended. -/
theorem outKV_key (k : PyStr) (v : Val) :
    (outKV k v).1 = k ∨ (outKV k v).1 = k ++ b64suffix := by
  cases v <;> simp only [outKV]
  case bytes bs =>
    rcases h : maybestr bs with _ | y
    · simp
    · by_cases hy : y = [] <;> simp [hy]
  all_goals simp

/-- No loop iteration ever writes a byte-string value into the output. -/
theorem outKV_val_not_bytes (k : PyStr) (v : Val) (bs : List Nat) :
    (outKV k v).2 ≠ Val.bytes bs := by
  cases v <;> simp only [outKV, jsonable]
  case bytes bs' =>
    rcases h : maybestr bs' with _ | y
    · simp
    · by_cases hy : y = [] <;> simp [hy]
  all_goals simp

/-- For a non-byte-string value the loop writes `(k, jsonable v)`. -/
theorem outKV_not_bytes (k : PyStr) (v : Val) (hv : v.isBytes = false) :
    outKV k v = (k, jsonable v) := by
  cases v <;> simp only [outKV]
  case bytes bs => simp [Val.isBytes] at hv

/-- For a byte-string value failing the printable test (`None` or the empty
string), the loop writes the base64 entry. -/
theorem outKV_b64_path (k : PyStr) (bs : List Nat)
    (h : maybestr bs = none ∨ maybestr bs = some []) :
    outKV k (Val.bytes bs) = (k ++ b64suffix, Val.text (b64encode bs)) := by
  simp only [outKV]
  rcases h with h | h <;> rw [h]
  simp

/-- For a byte-string value passing the printable test with a nonempty
string, the loop writes the decoded text under the original key. -/
theorem outKV_text_path (k : PyStr) (bs y : List Nat)
    (h : maybestr bs = some y) (hy : y ≠ []) :
    outKV k (Val.bytes bs) = (k, Val.text y) := by
  simp only [outKV]
  rw [h]
  simp [hy]

/-- A key never equals itself with `_b64` appended. -/
theorem ne_append_b64suffix (k : PyStr) : k ≠ k ++ b64suffix := by
  intro h
  have := congrArg List.length h
  simp [b64suffix] at this

/-- C3: for every value that is not a mapping — sequences, bare byte strings,
text strings, numbers, booleans and null — `jsonable` is the identity: no
recursion into sequence elements and no special-casing of byte strings at top
level or nested inside sequences. -/
theorem C3_non_mapping_identity (v : Val) (h : v.isMap = false) : jsonable v = v := by
  cases v <;> first | rfl | simp [Val.isMap] at h

/-- Witness for C3: a sequence holding a non-printable byte string (and even
a nested mapping) passes through entirely unchanged. -/
theorem C3_witness :
    (Val.arr [Val.bytes [0xFF], Val.map [([0x61], Val.bytes [0xFF])]]).isMap = false ∧
      jsonable (Val.arr [Val.bytes [0xFF], Val.map [([0x61], Val.bytes [0xFF])]])
        = Val.arr [Val.bytes [0xFF], Val.map [([0x61], Val.bytes [0xFF])]] :=
  ⟨rfl, C3_non_mapping_identity _ rfl⟩

/-- C4: `maybestr` returns the decoded text exactly when strict UTF-8
decoding succeeds and every decoded code point lies in the inclusive range
`[0x20, 0x7F]`; if decoding raises an error or any code point falls outside
that range, it reports `None`. -/
theorem C4_maybestr_spec (x : List Nat) :
    (∀ y, maybestr x = some y ↔
      (utf8Decode x = some y ∧ ∀ c ∈ y, 0x20 ≤ c ∧ c ≤ 0x7F)) ∧
    (maybestr x = none ↔
      (utf8Decode x = none ∨ ∃ y, utf8Decode x = some y ∧ ∃ c ∈ y, c < 0x20 ∨ 0x7F < c)) :=
  ⟨fun y => maybestr_eq_some_iff x y, maybestr_eq_none_iff x⟩

/-- C5: for an entry holding the empty byte string, `maybestr` returns the
decoded empty text, but the truthiness test `if xs:` treats it as not
printable: the loop writes `(k + "_b64", "")` and the output has no entry
`(k, "")`. -/
theorem C5_empty_bytes (k : PyStr) (rest out : List (PyStr × Val)) :
    maybestr [] = some [] ∧
    jsonableEntries ((k, Val.bytes []) :: rest) out =
      jsonableEntries rest (dictInsert out (k ++ b64suffix) (Val.text [])) ∧
    Val.lookup (jsonable (Val.map [(k, Val.bytes [])])) (k ++ b64suffix)
      = some (Val.text []) ∧
    Val.lookup (jsonable (Val.map [(k, Val.bytes [])])) k = none := by
  have hout : outKV k (Val.bytes []) = (k ++ b64suffix, Val.text []) := by
    rw [outKV_b64_path k [] (Or.inr rfl)]
    rfl
  refine ⟨rfl, ?_, ?_, ?_⟩
  · rw [jsonableEntries_cons, hout]
  · rw [lookup_jsonable_map]
    rw [lastWriteVal_eq_some [(k, Val.bytes [])] (k ++ b64suffix) (k, Val.bytes [])
      (List.mem_singleton.mpr rfl) (by rw [hout]) (fun e' he' _ => List.mem_singleton.mp he')]
    rw [hout]
  · rw [lookup_jsonable_map]
    refine lastWriteVal_eq_none _ _ ?_
    intro e he
    rw [List.mem_singleton.mp he]
    rw [show (outKV (k, Val.bytes []).1 (k, Val.bytes []).2) = (k ++ b64suffix, Val.text []) from hout]
    exact fun h => ne_append_b64suffix k h.symm

/-- C7: a decode error inside `maybestr` is caught by its bare `except:` and
resolves to `None`; the `jsonable` loop then takes the base64 fallback for
that entry and continues normally — the error never reaches the caller. -/
theorem C7_decode_error_recovered (bs : List Nat) (h : utf8Decode bs = none) :
    maybestr bs = none ∧
    ∀ (k : PyStr) (rest out : List (PyStr × Val)),
      jsonableEntries ((k, Val.bytes bs) :: rest) out =
        jsonableEntries rest (dictInsert out (k ++ b64suffix) (Val.text (b64encode bs))) := by
  have hm : maybestr bs = none := maybestr_not_printable bs (Or.inr h)
  refine ⟨hm, ?_⟩
  intro k rest out
  rw [jsonableEntries_cons, outKV_b64_path k bs (Or.inl hm)]

/-- Witness for C7: the lone byte `0xC0` is invalid UTF-8; `maybestr` yields
`None` and the loop performs the base64 assignment. -/
theorem C7_witness :
    utf8Decode [0xC0] = none ∧ maybestr [0xC0] = none ∧
      jsonableEntries [([0x61], Val.bytes [0xC0])] [] =
        dictInsert [] ([0x61] ++ b64suffix) (Val.text (b64encode [0xC0])) :=
  ⟨rfl, (C7_decode_error_recovered [0xC0] rfl).1,
    (C7_decode_error_recovered [0xC0] rfl).2 [0x61] [] []⟩

/-- C10: the transform raises no error when two input entries produce the
same output key: it always yields a mapping, and every output key holds the
value contributed by the last entry (in the mapping's iteration order) that
writes it — Python dict assignment's last-write-wins semantics. -/
theorem C10_last_write_wins (es : List (PyStr × Val)) (q : PyStr) :
    (jsonable (Val.map es)).isMap = true ∧
    Val.lookup (jsonable (Val.map es)) q = lastWriteVal es q :=
  ⟨rfl, lookup_jsonable_map es q⟩

/-- C1 counterexample: the empty byte string satisfies the claim's
hypotheses — all of its bytes (vacuously) lie in `[0x20, 0x7F]` and it is
valid UTF-8 — yet `{"a": b""}` transforms to `{"a_b64": ""}`: the output
neither contains `(k, decoded_text)` nor avoids the `k + "_b64"` key. -/
theorem C1_counterexample :
    ¬ (Val.lookup (jsonable (Val.map [([0x61], Val.bytes [])])) [0x61]
          = some (Val.text []) ∧
       Val.lookup (jsonable (Val.map [([0x61], Val.bytes [])]))
          ([0x61] ++ b64suffix) = none) := by
  decide

/-- C1 (amended): in a mapping with distinct keys, an entry `(k, v)` whose
value is a nonempty byte string with all bytes in `[0x20, 0x7F]` (hence valid
UTF-8) yields the output entry `(k, decoded_text_of(v))` and no `k + "_b64"`
key — provided no other entry collides with those output keys, i.e. the
mapping has no key `k + "_b64"` and no key `k'` with `k' + "_b64" = k`. -/
theorem C1_printable_entry (es : List (PyStr × Val)) (k : PyStr) (bs : List Nat)
    (hnd : (es.map Prod.fst).Nodup)
    (hmem : (k, Val.bytes bs) ∈ es)
    (hne : bs ≠ [])
    (hpr : ∀ b ∈ bs, 0x20 ≤ b ∧ b ≤ 0x7F)
    (hkb : (k ++ b64suffix) ∉ es.map Prod.fst)
    (hsrc : ∀ k' ∈ es.map Prod.fst, k' ++ b64suffix ≠ k) :
    Val.lookup (jsonable (Val.map es)) k = some (Val.text bs) ∧
    Val.lookup (jsonable (Val.map es)) (k ++ b64suffix) = none := by
  have hout : outKV k (Val.bytes bs) = (k, Val.text bs) :=
    outKV_text_path k bs bs (maybestr_printable bs hpr) hne
  constructor
  · rw [lookup_jsonable_map]
    rw [lastWriteVal_eq_some es k (k, Val.bytes bs) hmem (by rw [hout]) ?huniq]
    · rw [hout]
    case huniq =>
      intro e' he' hw'
      obtain ⟨k', v'⟩ := e'
      rcases outKV_key k' v' with hk | hk
      · rw [hk] at hw'
        subst hw'
        have hv : v' = Val.bytes bs := nodup_keys_val_eq es k' v' (Val.bytes bs) hnd he' hmem
        rw [hv]
      · rw [hk] at hw'
        exact absurd hw' (hsrc k' (List.mem_map_of_mem Prod.fst he'))
  · rw [lookup_jsonable_map]
    refine lastWriteVal_eq_none es (k ++ b64suffix) ?_
    intro e' he'
    obtain ⟨k', v'⟩ := e'
    rcases outKV_key k' v' with hk | hk <;> rw [hk]
    · intro hcon
      exact hkb (hcon ▸ List.mem_map_of_mem Prod.fst he')
    · intro hcon
      have hkk : k' = k := List.append_cancel_right hcon
      subst hkk
      have hv : v' = Val.bytes bs := nodup_keys_val_eq es k' v' (Val.bytes bs) hnd he' hmem
      rw [hv, hout] at hk
      exact ne_append_b64suffix k' hk

/-- Witness for the amended C1: `{"a": b"AB"}` transforms to
`{"a": "AB"}` with no `"a_b64"` key. -/
theorem C1_witness :
    Val.lookup (jsonable (Val.map [([0x61], Val.bytes [0x41, 0x42])])) [0x61]
        = some (Val.text [0x41, 0x42]) ∧
    Val.lookup (jsonable (Val.map [([0x61], Val.bytes [0x41, 0x42])]))
        ([0x61] ++ b64suffix) = none :=
  C1_printable_entry [([0x61], Val.bytes [0x41, 0x42])] [0x61] [0x41, 0x42]
    (by decide) (by decide) (by decide) (by decide) (by decide) (by decide)

/-- C2 counterexample: when the mapping itself already holds a text entry
under `"x_b64"` after a non-printable byte string under `"x"`, the later
entry overwrites the base64 entry, so the output does not contain
`("x_b64", standard_base64(v))` as the claim demands for every mapping. -/
theorem C2_counterexample :
    ¬ (Val.lookup (jsonable (Val.map
          [([0x78], Val.bytes [0xFF]),
           ([0x78, 0x5F, 0x62, 0x36, 0x34], Val.text [0x68, 0x69])]))
          ([0x78] ++ b64suffix) = some (Val.text (b64encode [0xFF])) ∧
       Val.lookup (jsonable (Val.map
          [([0x78], Val.bytes [0xFF]),
           ([0x78, 0x5F, 0x62, 0x36, 0x34], Val.text [0x68, 0x69])]))
          [0x78] ≠ some (Val.bytes [0xFF])) := by
  decide

/-- C2 (amended): in a mapping with distinct keys, an entry `(k, v)` whose
byte-string value has a byte outside `[0x20, 0x7F]` or is invalid UTF-8
yields the output entry `(k + "_b64", standard_base64(v))`, and the output
never holds the raw bytes under `k` — provided the mapping has no colliding
key `k + "_b64"` of its own. -/
theorem C2_binary_entry (es : List (PyStr × Val)) (k : PyStr) (bs : List Nat)
    (hnd : (es.map Prod.fst).Nodup)
    (hmem : (k, Val.bytes bs) ∈ es)
    (hbad : (∃ b ∈ bs, b < 0x20 ∨ 0x7F < b) ∨ utf8Decode bs = none)
    (hkb : (k ++ b64suffix) ∉ es.map Prod.fst) :
    Val.lookup (jsonable (Val.map es)) (k ++ b64suffix)
        = some (Val.text (b64encode bs)) ∧
    Val.lookup (jsonable (Val.map es)) k ≠ some (Val.bytes bs) := by
  have hm : maybestr bs = none := maybestr_not_printable bs hbad
  have hout : outKV k (Val.bytes bs) = (k ++ b64suffix, Val.text (b64encode bs)) :=
    outKV_b64_path k bs (Or.inl hm)
  constructor
  · rw [lookup_jsonable_map]
    rw [lastWriteVal_eq_some es (k ++ b64suffix) (k, Val.bytes bs) hmem (by rw [hout]) ?huniq]
    · rw [hout]
    case huniq =>
      intro e' he' hw'
      obtain ⟨k', v'⟩ := e'
      rcases outKV_key k' v' with hk | hk
      · rw [hk] at hw'
        exact absurd (hw' ▸ List.mem_map_of_mem Prod.fst he') hkb
      · rw [hk] at hw'
        have hkk : k' = k := List.append_cancel_right hw'
        subst hkk
        have hv : v' = Val.bytes bs := nodup_keys_val_eq es k' v' (Val.bytes bs) hnd he' hmem
        rw [hv]
  · intro hcon
    obtain ⟨e', _, hekv⟩ := lookup_jsonable_some es k (Val.bytes bs) hcon
    exact outKV_val_not_bytes e'.1 e'.2 bs (by rw [hekv])

/-- Witness for the amended C2: `{"x": b"\xff\xfe\x00"}` transforms to
`{"x_b64": "//4A"}` (the spec's Scenario 2) and keeps no raw bytes. -/
theorem C2_witness :
    Val.lookup (jsonable (Val.map [([0x78], Val.bytes [0xFF, 0xFE, 0x00])]))
        ([0x78] ++ b64suffix) = some (Val.text (b64encode [0xFF, 0xFE, 0x00])) ∧
    Val.lookup (jsonable (Val.map [([0x78], Val.bytes [0xFF, 0xFE, 0x00])]))
        [0x78] ≠ some (Val.bytes [0xFF, 0xFE, 0x00]) :=
  C2_binary_entry [([0x78], Val.bytes [0xFF, 0xFE, 0x00])] [0x78] [0xFF, 0xFE, 0x00]
    (by decide) (by decide) (by decide) (by decide)

/-- C6 counterexample: in `{"x": b"\xff", "x_b64": "hi"}` the entry
`("x", b"\xff")` takes the base64 path, but the text finally stored under
`"x_b64"` is the later entry's `"hi"`, whose base64 decoding fails instead of
reproducing `b"\xff"`. -/
theorem C6_counterexample :
    ¬ (∀ t, Val.lookup (jsonable (Val.map
          [([0x78], Val.bytes [0xFF]),
           ([0x78, 0x5F, 0x62, 0x36, 0x34], Val.text [0x68, 0x69])]))
          ([0x78] ++ b64suffix) = some (Val.text t) → b64decode t = some [0xFF]) := by
  intro h
  exact absurd (h [0x68, 0x69] (by decide)) (by decide)

/-- C6 (amended): in a mapping with distinct keys and no key `k + "_b64"` of
its own, an entry `(k, v)` taking the base64 path (its `maybestr` is `None`
or the empty string) stores `standard_base64(v)` under `k + "_b64"`, and
standard base64 decoding of that stored text reproduces the original byte
string exactly. -/
theorem C6_roundtrip (es : List (PyStr × Val)) (k : PyStr) (bs : List Nat)
    (hnd : (es.map Prod.fst).Nodup)
    (hmem : (k, Val.bytes bs) ∈ es)
    (hbytes : ∀ b ∈ bs, b < 256)
    (hpath : maybestr bs = none ∨ maybestr bs = some [])
    (hkb : (k ++ b64suffix) ∉ es.map Prod.fst) :
    Val.lookup (jsonable (Val.map es)) (k ++ b64suffix)
        = some (Val.text (b64encode bs)) ∧
    b64decode (b64encode bs) = some bs := by
  have hout : outKV k (Val.bytes bs) = (k ++ b64suffix, Val.text (b64encode bs)) :=
    outKV_b64_path k bs hpath
  refine ⟨?_, b64_roundtrip bs hbytes⟩
  rw [lookup_jsonable_map]
  rw [lastWriteVal_eq_some es (k ++ b64suffix) (k, Val.bytes bs) hmem (by rw [hout]) ?huniq]
  · rw [hout]
  case huniq =>
    intro e' he' hw'
    obtain ⟨k', v'⟩ := e'
    rcases outKV_key k' v' with hk | hk
    · rw [hk] at hw'
      exact absurd (hw' ▸ List.mem_map_of_mem Prod.fst he') hkb
    · rw [hk] at hw'
      have hkk : k' = k := List.append_cancel_right hw'
      subst hkk
      have hv : v' = Val.bytes bs := nodup_keys_val_eq es k' v' (Val.bytes bs) hnd he' hmem
      rw [hv]

/-- Witness for the amended C6 at `{"a": b"\xff"}`: the stored text is
`"/w=="` and decodes back to `b"\xff"`. -/
theorem C6_witness :
    Val.lookup (jsonable (Val.map [([0x61], Val.bytes [0xFF])])) ([0x61] ++ b64suffix)
        = some (Val.text (b64encode [0xFF])) ∧
    b64decode (b64encode [0xFF]) = some [0xFF] :=
  C6_roundtrip [([0x61], Val.bytes [0xFF])] [0x61] [0xFF]
    (by decide) (by decide) (by decide) (by decide) (by decide)

/-- C8 counterexample: in `{"a_b64": 5, "a": b"\xff"}` the first entry's
value is not a byte string, yet its output entry `("a_b64", 5)` is later
overwritten by the base64 entry of `"a"`, so the output does not contain
`(k, transform(v))` as the claim demands for every mapping entry. -/
theorem C8_counterexample :
    ¬ (Val.lookup (jsonable (Val.map
        [([0x61, 0x5F, 0x62, 0x36, 0x34], Val.int 5), ([0x61], Val.bytes [0xFF])]))
        [0x61, 0x5F, 0x62, 0x36, 0x34] = some (jsonable (Val.int 5))) := by
  decide

/-- C8 (amended): in a mapping with distinct keys, an entry `(k, v)` whose
value is not a byte string yields the output entry `(k, jsonable v)` — the
value transformed recursively under the verbatim key — provided no other
entry writes the output key `k`, i.e. the mapping has no key `k'` with
`k' + "_b64" = k`. -/
theorem C8_recursive_entry (es : List (PyStr × Val)) (k : PyStr) (v : Val)
    (hnd : (es.map Prod.fst).Nodup)
    (hmem : (k, v) ∈ es)
    (hnb : v.isBytes = false)
    (hsrc : ∀ k' ∈ es.map Prod.fst, k' ++ b64suffix ≠ k) :
    Val.lookup (jsonable (Val.map es)) k = some (jsonable v) := by
  have hout : outKV k v = (k, jsonable v) := outKV_not_bytes k v hnb
  rw [lookup_jsonable_map]
  rw [lastWriteVal_eq_some es k (k, v) hmem (by rw [hout]) ?huniq]
  · rw [hout]
  case huniq =>
    intro e' he' hw'
    obtain ⟨k', v'⟩ := e'
    rcases outKV_key k' v' with hk | hk
    · rw [hk] at hw'
      subst hw'
      have hv : v' = v := nodup_keys_val_eq es k' v' v hnd he' hmem
      rw [hv]
    · rw [hk] at hw'
      exact absurd hw' (hsrc k' (List.mem_map_of_mem Prod.fst he'))

/-- Witness for the amended C8: `{"a": {"b": b"\xff"}}` stores the
recursively transformed mapping under the verbatim key `"a"`. -/
theorem C8_witness :
    Val.lookup (jsonable (Val.map [([0x61], Val.map [([0x62], Val.bytes [0xFF])])])) [0x61]
        = some (jsonable (Val.map [([0x62], Val.bytes [0xFF])])) :=
  C8_recursive_entry [([0x61], Val.map [([0x62], Val.bytes [0xFF])])] [0x61]
    (Val.map [([0x62], Val.bytes [0xFF])]) (by decide) (by decide) (by decide) (by decide)

/-- C9: the modelled main loop.  For empty stdin the decoder stream is just
the end-of-stream signal: the program emits zero output lines, but the
uncaught `EOFError` terminates the interpreter with exit status `1`, not `0`;
a decoder failure on malformed input also exits `1`.  In fact the `while
True` loop has no clean-termination path at all: whatever the decoded items
and however the stream ends, the exit status is `1`. -/
theorem C9_exit_status :
    (mainLoop (decodeResults [] true)).1 = [] ∧
    exitCode (mainLoop (decodeResults [] true)) = 1 ∧
    exitCode (mainLoop (decodeResults [] false)) = 1 ∧
    ∀ (items : List Val) (clean : Bool),
      exitCode (mainLoop (decodeResults items clean)) = 1 := by
  have hstep : ∀ (v : Val) (s : List (Except PyExc Val)),
      exitCode (mainLoop (Except.ok v :: s)) = exitCode (mainLoop s) := by
    intro v s
    rcases h : mainLoop s with ⟨lines, exc⟩
    simp [mainLoop, exitCode, h]
  have hdr : ∀ (v : Val) (items : List Val) (clean : Bool),
      decodeResults (v :: items) clean = Except.ok v :: decodeResults items clean := by
    intro v items clean
    simp [decodeResults]
  refine ⟨rfl, rfl, rfl, ?_⟩
  intro items clean
  induction items with
  | nil => cases clean <;> rfl
  | cons v rest ih => rw [hdr, hstep, ih]
